import Mathlib

/-!
# Verification of the `riotpool` thread pool (crate `riotpool`, `src/lib.rs`)

Two shallow embeddings of the pool:

* A small-step concurrency model (`Sys`, `Act`, `step`, `run`): the channel is a
  FIFO list of job ids (ids assigned in submission order, as `mpsc::channel`
  delivers in send order from a single producer), the shared
  `Arc<Mutex<Receiver>>` is a `lockHolder` field, and each worker runs the loop
  of `Worker::new`: acquire the lock, `recv`, release the lock (the guard is a
  temporary of the `recv` statement), then run the job with the lock free.
  A job may panic (`fp : Nat → Bool` says which ids do), which kills only that
  worker's thread.

* A sequential API model (`Pool`, `ThreadPool.new`, `ThreadPool.execute`,
  `dropPool`) of the pool methods, where a Rust panic is `Option.none` (for
  `new`/`execute`) or `DropResult.panicked` (for `Drop::drop`, whose body keeps
  running until the failing `expect`).
-/

namespace Riotpool

/-- Program point of one worker thread inside the loop of `Worker::new`:
`idle` = about to call `receiver.lock()`; `locked` = holds the mutex, about to
`recv()`; `running j` = lock released, executing job `j` (`job()`);
`panicked j` = job `j` panicked and unwound, killing the thread;
`terminated` = `recv` returned `Err` and the loop hit `break`. -/
inductive WStatus
  | idle
  | locked
  | running (j : Nat)
  | panicked (j : Nat)
  | terminated
deriving DecidableEq

/-- One worker of the pool: its diagnostic id (`Worker.id`, 1-based), its
program point, and the jobs it has run to completion, in order. -/
structure WorkerSt where
  wid : Nat
  status : WStatus
  execed : List Nat
deriving DecidableEq

/-- Global state: the channel buffer (FIFO, oldest first), whether the
`Sender` is still alive, which worker (by index) holds the receiver mutex,
the workers, and the ghost history of successfully submitted job ids. -/
structure Sys where
  queue : List Nat
  senderOpen : Bool
  lockHolder : Option Nat
  workers : List WorkerSt
  submitted : List Nat
deriving DecidableEq

/-- State after `ThreadPool::new(n)`: empty channel, live sender, free mutex,
and `n` workers with ids `1..=n` (the `for id in 1..=size` loop), all idle. -/
def init (n : Nat) : Sys :=
  { queue := []
    senderOpen := true
    lockHolder := none
    workers := (List.range n).map (fun i => ⟨i + 1, WStatus.idle, []⟩)
    submitted := [] }

/-- Scheduler actions: a producer calls `execute` (`submit`), the pool drops
its sender (`close`), or worker `i` (by index) takes its next loop step. -/
inductive Act
  | submit
  | close
  | acquire (i : Nat)
  | recv (i : Nat)
  | finish (i : Nat)
deriving DecidableEq

/-- Replace the `i`-th element of a worker list by `f` of it. -/
def modifyAt (i : Nat) (f : WorkerSt → WorkerSt) : List WorkerSt → List WorkerSt
  | [] => []
  | w :: ws =>
    match i with
    | 0 => f w :: ws
    | i + 1 => w :: modifyAt i f ws

/-- One interleaving step. `none` means the action is not enabled there: the
worker is blocked (mutex taken, or `recv` on an empty open channel) or the
program panics (`send` on a closed channel aborts the producer). The `recv`
step pops the head of the FIFO buffer and releases the mutex in the same
statement, before the job runs, mirroring
`let message = receiver.lock().expect(..).recv();`. -/
def step (fp : Nat → Bool) (s : Sys) : Act → Option Sys
  | Act.submit =>
    if s.senderOpen then
      some { s with
              queue := s.queue ++ [s.submitted.length]
              submitted := s.submitted ++ [s.submitted.length] }
    else none
  | Act.close =>
    if s.senderOpen then some { s with senderOpen := false } else none
  | Act.acquire i =>
    match s.workers[i]? with
    | some w =>
      if w.status = WStatus.idle ∧ s.lockHolder = none then
        some { s with
                lockHolder := some i
                workers := modifyAt i (fun u => { u with status := WStatus.locked }) s.workers }
      else none
    | none => none
  | Act.recv i =>
    match s.workers[i]? with
    | some w =>
      if w.status = WStatus.locked ∧ s.lockHolder = some i then
        match s.queue with
        | j :: rest =>
          some { s with
                  queue := rest
                  lockHolder := none
                  workers := modifyAt i (fun u => { u with status := WStatus.running j }) s.workers }
        | [] =>
          if s.senderOpen then none
          else
            some { s with
                    lockHolder := none
                    workers := modifyAt i (fun u => { u with status := WStatus.terminated }) s.workers }
      else none
    | none => none
  | Act.finish i =>
    match s.workers[i]? with
    | some w =>
      match w.status with
      | WStatus.running j =>
        if fp j then
          some { s with
                  workers := modifyAt i (fun u => { u with status := WStatus.panicked j }) s.workers }
        else
          some { s with
                  workers := modifyAt i
                    (fun u => { u with status := WStatus.idle, execed := u.execed ++ [j] })
                    s.workers }
      | _ => none
    | none => none

/-- Run a whole schedule; `none` if any action is not enabled where it occurs. -/
def run (fp : Nat → Bool) : List Act → Sys → Option Sys
  | [], s => some s
  | a :: as, s =>
    match step fp s a with
    | some s' => run fp as s'
    | none => none

/-- All jobs completed so far, worker by worker. -/
def execedAll (s : Sys) : List Nat :=
  (s.workers.map WorkerSt.execed).flatten

/-- The job a worker has dequeued but not completed, if any. -/
def statusJob : WStatus → List Nat
  | WStatus.running j => [j]
  | WStatus.panicked j => [j]
  | _ => []

/-- Jobs dequeued but not completed, across all workers. -/
def inFlight (s : Sys) : List Nat :=
  (s.workers.map (fun w => statusJob w.status)).flatten

theorem modifyAt_decomp (f : WorkerSt → WorkerSt) :
    ∀ (i : Nat) (ws : List WorkerSt) (w : WorkerSt), ws[i]? = some w →
      ∃ A B, ws = A ++ w :: B ∧ modifyAt i f ws = A ++ f w :: B ∧ A.length = i
  | 0, [], w, h => by simp at h
  | i + 1, [], w, h => by simp at h
  | 0, u :: ws, w, h => by
    simp only [List.getElem?_cons_zero, Option.some.injEq] at h
    subst h
    exact ⟨[], ws, rfl, rfl, rfl⟩
  | i + 1, u :: ws, w, h => by
    simp only [List.getElem?_cons_succ] at h
    obtain ⟨A, B, h1, h2, h3⟩ := modifyAt_decomp f i ws w h
    exact ⟨u :: A, B, by simp [h1], by simp [modifyAt, h2], by simp [h3]⟩

theorem getElem?_modifyAt_self (f : WorkerSt → WorkerSt) :
    ∀ (i : Nat) (ws : List WorkerSt), (modifyAt i f ws)[i]? = ws[i]?.map f
  | _, [] => by simp [modifyAt]
  | 0, u :: ws => by simp [modifyAt]
  | i + 1, u :: ws => by
    simpa [modifyAt] using getElem?_modifyAt_self f i ws

theorem getElem?_modifyAt_ne (f : WorkerSt → WorkerSt) :
    ∀ (i k : Nat) (ws : List WorkerSt), k ≠ i → (modifyAt i f ws)[k]? = ws[k]?
  | _, _, [], _ => by simp [modifyAt]
  | 0, 0, u :: ws, h => absurd rfl h
  | 0, k + 1, u :: ws, h => by simp [modifyAt]
  | i + 1, 0, u :: ws, h => by simp [modifyAt]
  | i + 1, k + 1, u :: ws, h => by
    simpa [modifyAt] using getElem?_modifyAt_ne f i k ws (by omega)

/-- The inductive invariant of the pool's concurrent execution: job
conservation (every submitted job is completed, in flight, or still queued,
with the right multiplicities), submitted ids are `0..M-1` in order, once any
worker has terminated the channel is closed and drained, and the receiver
mutex is only ever held by a worker at the `locked` program point. -/
structure Inv (s : Sys) : Prop where
  count : ∀ j, s.submitted.count j =
    (execedAll s).count j + (inFlight s).count j + s.queue.count j
  subRange : s.submitted = List.range s.submitted.length
  termDrained : (∃ w ∈ s.workers, w.status = WStatus.terminated) →
    s.senderOpen = false ∧ s.queue = []
  lockInv : ∀ i, s.lockHolder = some i →
    ∃ w, s.workers[i]? = some w ∧ w.status = WStatus.locked

theorem inv_init (n : Nat) : Inv (init n) := by
  refine ⟨?_, ?_, ?_, ?_⟩
  · intro j
    have h1 : execedAll (init n) = [] := by
      simp [execedAll, init, List.flatten_eq_nil_iff]
    have h2 : inFlight (init n) = [] := by
      simp [inFlight, init, List.flatten_eq_nil_iff, statusJob]
    simp only [h1, h2]
    simp [init]
  · simp [init]
  · rintro ⟨w, hw, hst⟩
    simp only [init, List.mem_map, List.mem_range] at hw
    obtain ⟨i, _, rfl⟩ := hw
    cases hst
  · intro i hi; simp [init] at hi

theorem mem_of_mem_modified {A B : List WorkerSt} {w fw u : WorkerSt}
    (h : u ∈ A ++ fw :: B) (hne : u = fw → False) : u ∈ A ++ w :: B := by
  rcases List.mem_append.1 h with h | h
  · exact List.mem_append.2 (Or.inl h)
  · rcases List.mem_cons.1 h with h | h
    · exact absurd h hne
    · exact List.mem_append.2 (Or.inr (List.mem_cons.2 (Or.inr h)))

/-- Every scheduler step preserves the invariant. -/
theorem step_inv {fp : Nat → Bool} {s s' : Sys} {a : Act}
    (hinv : Inv s) (hstep : step fp s a = some s') : Inv s' := by
  obtain ⟨hcount, hsub, hterm, hlock⟩ := hinv
  cases a with
  | submit =>
    simp only [step] at hstep
    split at hstep
    next hopen =>
      injection hstep with h; subst h
      refine ⟨?_, ?_, ?_, ?_⟩
      · intro j
        have hc := hcount j
        simp only [execedAll, inFlight] at hc ⊢
        simp only [List.count_append] at hc ⊢
        omega
      · simp only [List.length_append, List.length_cons, List.length_nil]
        rw [List.range_succ]
        rw [← hsub]
      · intro h
        exact absurd (hterm h).1 (by simp [hopen])
      · intro i hi
        exact hlock i hi
    next => cases hstep
  | close =>
    simp only [step] at hstep
    split at hstep
    next hopen =>
      injection hstep with h; subst h
      refine ⟨hcount, hsub, ?_, hlock⟩
      intro h
      exact ⟨rfl, (hterm h).2⟩
    next => cases hstep
  | acquire i =>
    simp only [step] at hstep
    split at hstep
    next w hmem =>
      split at hstep
      next hcond =>
        obtain ⟨hidle, hfree⟩ := hcond
        injection hstep with h; subst h
        obtain ⟨A, B, hws, hws', hA⟩ :=
          modifyAt_decomp (fun u => { u with status := WStatus.locked }) i s.workers w hmem
        refine ⟨?_, hsub, ?_, ?_⟩
        · intro j
          have hc := hcount j
          simp only [execedAll, inFlight] at hc ⊢
          rw [hws'] ; rw [hws] at hc
          simp only [List.map_append, List.map_cons, List.flatten_append, List.flatten_cons,
            List.count_append, hidle, statusJob] at hc ⊢
          omega
        · rintro ⟨u, hu, hust⟩
          rw [hws'] at hu
          refine (hterm ⟨u, ?_, hust⟩)
          rw [hws]
          refine mem_of_mem_modified hu ?_
          intro he
          rw [he] at hust
          cases hust
        · intro k hk
          simp only [Option.some.injEq] at hk
          subst hk
          refine ⟨{ w with status := WStatus.locked }, ?_, rfl⟩
          rw [getElem?_modifyAt_self, hmem]
          rfl
      next => cases hstep
    next => cases hstep
  | recv i =>
    simp only [step] at hstep
    split at hstep
    next w hmem =>
      split at hstep
      next hcond =>
        obtain ⟨hlk, hhold⟩ := hcond
        split at hstep
        next j rest hq =>
          injection hstep with h; subst h
          obtain ⟨A, B, hws, hws', hA⟩ :=
            modifyAt_decomp (fun u => { u with status := WStatus.running j }) i s.workers w hmem
          refine ⟨?_, hsub, ?_, ?_⟩
          · intro m
            have hc := hcount m
            simp only [execedAll, inFlight] at hc ⊢
            rw [hws'] ; rw [hws, hq] at hc
            simp only [List.map_append, List.map_cons, List.flatten_append, List.flatten_cons,
              List.count_append, List.count_cons, hlk, statusJob] at hc ⊢
            simp only [List.count_nil, List.count_cons] at hc ⊢
            omega
          · rintro ⟨u, hu, hust⟩
            rw [hws'] at hu
            have : u ∈ s.workers := by
              rw [hws]
              refine mem_of_mem_modified hu ?_
              intro he
              rw [he] at hust
              cases hust
            have h2 := (hterm ⟨u, this, hust⟩).2
            rw [hq] at h2
            cases h2
          · intro k hk
            cases hk
        next hq =>
          split at hstep
          next => cases hstep
          next hclosed =>
            injection hstep with h; subst h
            obtain ⟨A, B, hws, hws', hA⟩ :=
              modifyAt_decomp (fun u => { u with status := WStatus.terminated }) i s.workers w hmem
            have hso : s.senderOpen = false := by
              cases hy : s.senderOpen
              · rfl
              · exact absurd hy hclosed
            refine ⟨?_, hsub, ?_, ?_⟩
            · intro m
              have hc := hcount m
              simp only [execedAll, inFlight] at hc ⊢
              rw [hws'] ; rw [hws] at hc
              simp only [List.map_append, List.map_cons, List.flatten_append, List.flatten_cons,
                List.count_append, hlk, statusJob] at hc ⊢
              omega
            · intro _
              exact ⟨hso, hq⟩
            · intro k hk
              cases hk
      next => cases hstep
    next => cases hstep
  | finish i =>
    simp only [step] at hstep
    split at hstep
    next w hmem =>
      split at hstep
      next j hst =>
        split at hstep
        next hpanic =>
          injection hstep with h; subst h
          obtain ⟨A, B, hws, hws', hA⟩ :=
            modifyAt_decomp (fun u => { u with status := WStatus.panicked j }) i s.workers w hmem
          refine ⟨?_, hsub, ?_, ?_⟩
          · intro m
            have hc := hcount m
            simp only [execedAll, inFlight] at hc ⊢
            rw [hws'] ; rw [hws] at hc
            simp only [List.map_append, List.map_cons, List.flatten_append, List.flatten_cons,
              List.count_append, hst, statusJob] at hc ⊢
            omega
          · rintro ⟨u, hu, hust⟩
            rw [hws'] at hu
            refine hterm ⟨u, ?_, hust⟩
            rw [hws]
            refine mem_of_mem_modified hu ?_
            intro he
            rw [he] at hust
            cases hust
          · intro k hk
            obtain ⟨u, hu, hust⟩ := hlock k hk
            have hki : k ≠ i := by
              intro he
              subst he
              rw [hmem] at hu
              injection hu with hu
              rw [← hu, hst] at hust
              cases hust
            refine ⟨u, ?_, hust⟩
            rw [getElem?_modifyAt_ne _ i k _ hki]
            exact hu
        next hpanic =>
          injection hstep with h; subst h
          obtain ⟨A, B, hws, hws', hA⟩ :=
            modifyAt_decomp
              (fun u => { u with status := WStatus.idle, execed := u.execed ++ [j] })
              i s.workers w hmem
          refine ⟨?_, hsub, ?_, ?_⟩
          · intro m
            have hc := hcount m
            simp only [execedAll, inFlight] at hc ⊢
            rw [hws'] ; rw [hws] at hc
            simp only [List.map_append, List.map_cons, List.flatten_append, List.flatten_cons,
              List.count_append, List.count_cons, hst, statusJob] at hc ⊢
            simp only [List.count_nil, List.count_cons] at hc ⊢
            omega
          · rintro ⟨u, hu, hust⟩
            rw [hws'] at hu
            refine hterm ⟨u, ?_, hust⟩
            rw [hws]
            refine mem_of_mem_modified hu ?_
            intro he
            rw [he] at hust
            cases hust
          · intro k hk
            obtain ⟨u, hu, hust⟩ := hlock k hk
            have hki : k ≠ i := by
              intro he
              subst he
              rw [hmem] at hu
              injection hu with hu
              rw [← hu, hst] at hust
              cases hust
            refine ⟨u, ?_, hust⟩
            rw [getElem?_modifyAt_ne _ i k _ hki]
            exact hu
      next => cases hstep
    next => cases hstep

/-- Invariants propagate along whole schedules. -/
theorem run_inv {fp : Nat → Bool} :
    ∀ (acts : List Act) (s s' : Sys), Inv s → run fp acts s = some s' → Inv s'
  | [], s, s', h, hrun => by
    simp only [run, Option.some.injEq] at hrun
    rw [← hrun]; exact h
  | a :: as, s, s', h, hrun => by
    simp only [run] at hrun
    cases hstep : step fp s a with
    | none => rw [hstep] at hrun; cases hrun
    | some s1 =>
      rw [hstep] at hrun
      exact run_inv as s1 s' (step_inv h hstep) hrun

theorem map_wid_modifyAt (f : WorkerSt → WorkerSt) (hf : ∀ u, (f u).wid = u.wid) :
    ∀ (i : Nat) (ws : List WorkerSt),
      (modifyAt i f ws).map WorkerSt.wid = ws.map WorkerSt.wid
  | _, [] => by simp [modifyAt]
  | 0, u :: ws => by simp [modifyAt, hf]
  | i + 1, u :: ws => by simp [modifyAt, map_wid_modifyAt f hf i ws]

/-- No step creates, destroys, or re-identifies workers. -/
theorem step_wids {fp : Nat → Bool} {s s' : Sys} {a : Act} (hstep : step fp s a = some s') :
    s'.workers.map WorkerSt.wid = s.workers.map WorkerSt.wid := by
  cases a with
  | submit =>
    simp only [step] at hstep
    split at hstep
    next => injection hstep with h; subst h; rfl
    next => cases hstep
  | close =>
    simp only [step] at hstep
    split at hstep
    next => injection hstep with h; subst h; rfl
    next => cases hstep
  | acquire i =>
    simp only [step] at hstep
    split at hstep
    next w hmem =>
      split at hstep
      next =>
        injection hstep with h; subst h
        exact map_wid_modifyAt (fun u => { u with status := WStatus.locked }) (fun u => rfl) i s.workers
      next => cases hstep
    next => cases hstep
  | recv i =>
    simp only [step] at hstep
    split at hstep
    next w hmem =>
      split at hstep
      next =>
        split at hstep
        next j rest hq =>
          injection hstep with h; subst h
          exact map_wid_modifyAt (fun u => { u with status := WStatus.running j }) (fun u => rfl) i s.workers
        next =>
          split at hstep
          next => cases hstep
          next =>
            injection hstep with h; subst h
            exact map_wid_modifyAt (fun u => { u with status := WStatus.terminated }) (fun u => rfl) i s.workers
      next => cases hstep
    next => cases hstep
  | finish i =>
    simp only [step] at hstep
    split at hstep
    next w hmem =>
      split at hstep
      next j hst =>
        split at hstep
        next =>
          injection hstep with h; subst h
          exact map_wid_modifyAt (fun u => { u with status := WStatus.panicked j }) (fun u => rfl) i s.workers
        next =>
          injection hstep with h; subst h
          exact map_wid_modifyAt (fun u => { u with status := WStatus.idle, execed := u.execed ++ [j] }) (fun u => rfl) i s.workers
      next => cases hstep
    next => cases hstep

theorem run_wids {fp : Nat → Bool} :
    ∀ (acts : List Act) (s s' : Sys), run fp acts s = some s' →
      s'.workers.map WorkerSt.wid = s.workers.map WorkerSt.wid
  | [], s, s', hrun => by
    simp only [run, Option.some.injEq] at hrun
    rw [← hrun]
  | a :: as, s, s', hrun => by
    simp only [run] at hrun
    cases hstep : step fp s a with
    | none => rw [hstep] at hrun; cases hrun
    | some s1 =>
      rw [hstep] at hrun
      rw [run_wids as s1 s' hrun, step_wids hstep]

/-- A worker whose job panicked is frozen: no later step touches its entry.
Its thread is dead and the pool never replaces it. -/
theorem step_panicked_frame {fp : Nat → Bool} {s s' : Sys} {a : Act} {i j : Nat} {w : WorkerSt}
    (hstep : step fp s a = some s') (hw : s.workers[i]? = some w)
    (hp : w.status = WStatus.panicked j) : s'.workers[i]? = some w := by
  cases a with
  | submit =>
    simp only [step] at hstep
    split at hstep
    next => injection hstep with h; subst h; exact hw
    next => cases hstep
  | close =>
    simp only [step] at hstep
    split at hstep
    next => injection hstep with h; subst h; exact hw
    next => cases hstep
  | acquire k =>
    simp only [step] at hstep
    split at hstep
    next u hmem =>
      split at hstep
      next hcond =>
        injection hstep with h; subst h
        have hik : i ≠ k := by
          intro he
          subst he
          rw [hw] at hmem
          injection hmem with hmem
          rw [← hmem, hp] at hcond
          simp at hcond
        rw [getElem?_modifyAt_ne _ k i _ hik]
        exact hw
      next => cases hstep
    next => cases hstep
  | recv k =>
    simp only [step] at hstep
    split at hstep
    next u hmem =>
      split at hstep
      next hcond =>
        have hik : i ≠ k := by
          intro he
          subst he
          rw [hw] at hmem
          injection hmem with hmem
          rw [← hmem, hp] at hcond
          simp at hcond
        split at hstep
        next j' rest hq =>
          injection hstep with h; subst h
          rw [getElem?_modifyAt_ne _ k i _ hik]
          exact hw
        next =>
          split at hstep
          next => cases hstep
          next =>
            injection hstep with h; subst h
            rw [getElem?_modifyAt_ne _ k i _ hik]
            exact hw
      next => cases hstep
    next => cases hstep
  | finish k =>
    simp only [step] at hstep
    split at hstep
    next u hmem =>
      split at hstep
      next j' hst =>
        have hik : i ≠ k := by
          intro he
          subst he
          rw [hw] at hmem
          injection hmem with hmem
          rw [← hmem, hp] at hst
          cases hst
        split at hstep
        next =>
          injection hstep with h; subst h
          rw [getElem?_modifyAt_ne _ k i _ hik]
          exact hw
        next =>
          injection hstep with h; subst h
          rw [getElem?_modifyAt_ne _ k i _ hik]
          exact hw
      next => cases hstep
    next => cases hstep

theorem run_panicked_frame {fp : Nat → Bool} {i j : Nat} {w : WorkerSt} :
    ∀ (acts : List Act) (s s' : Sys), run fp acts s = some s' →
      s.workers[i]? = some w → w.status = WStatus.panicked j →
      s'.workers[i]? = some w
  | [], s, s', hrun, hw, hp => by
    simp only [run, Option.some.injEq] at hrun
    rw [← hrun]; exact hw
  | a :: as, s, s', hrun, hw, hp => by
    simp only [run] at hrun
    cases hstep : step fp s a with
    | none => rw [hstep] at hrun; cases hrun
    | some s1 =>
      rw [hstep] at hrun
      exact run_panicked_frame as s1 s' hrun (step_panicked_frame hstep hw hp) hp

theorem count_flatten_eq_sum (j : Nat) : ∀ L : List (List Nat),
    L.flatten.count j = (L.map (List.count j)).sum
  | [] => by simp
  | x :: xs => by
    simp [List.count_append, count_flatten_eq_sum j xs]

/-- Single-worker refinement of the conservation invariant: with one worker the
submission history equals, as a plain list, the worker's completed jobs,
followed by its dequeued-but-unfinished job, followed by the queue. -/
def SInv (s : Sys) : Prop :=
  ∃ w, s.workers = [w] ∧ s.submitted = w.execed ++ statusJob w.status ++ s.queue

theorem sinv_init : SInv (init 1) :=
  ⟨⟨1, WStatus.idle, []⟩, by simp [init, List.range_succ], rfl⟩

theorem step_sinv {fp : Nat → Bool} {s s' : Sys} {a : Act}
    (h : SInv s) (hstep : step fp s a = some s') : SInv s' := by
  obtain ⟨w, hws, heq⟩ := h
  cases a with
  | submit =>
    simp only [step] at hstep
    split at hstep
    next hopen =>
      injection hstep with h; subst h
      refine ⟨w, hws, ?_⟩
      show s.submitted ++ [s.submitted.length] = w.execed ++ statusJob w.status ++ (s.queue ++ [s.submitted.length])
      rw [heq]
      simp
    next => cases hstep
  | close =>
    simp only [step] at hstep
    split at hstep
    next =>
      injection hstep with h; subst h
      exact ⟨w, hws, heq⟩
    next => cases hstep
  | acquire i =>
    simp only [step] at hstep
    split at hstep
    next u hmem =>
      split at hstep
      next hcond =>
        obtain ⟨hidle, _⟩ := hcond
        injection hstep with h; subst h
        rw [hws] at hmem
        cases i with
        | zero =>
          simp only [List.getElem?_cons_zero, Option.some.injEq] at hmem
          subst hmem
          refine ⟨{ w with status := WStatus.locked }, by rw [hws]; rfl, ?_⟩
          show s.submitted = w.execed ++ statusJob WStatus.locked ++ s.queue
          rw [heq, hidle]
          simp [statusJob]
        | succ k => simp at hmem
      next => cases hstep
    next => cases hstep
  | recv i =>
    simp only [step] at hstep
    split at hstep
    next u hmem =>
      split at hstep
      next hcond =>
        obtain ⟨hlk, _⟩ := hcond
        rw [hws] at hmem
        cases i with
        | zero =>
          simp only [List.getElem?_cons_zero, Option.some.injEq] at hmem
          subst hmem
          split at hstep
          next j rest hq =>
            injection hstep with h; subst h
            refine ⟨{ w with status := WStatus.running j }, by rw [hws]; rfl, ?_⟩
            show s.submitted = w.execed ++ statusJob (WStatus.running j) ++ rest
            rw [heq, hlk, hq]
            simp [statusJob]
          next hq =>
            split at hstep
            next => cases hstep
            next =>
              injection hstep with h; subst h
              refine ⟨{ w with status := WStatus.terminated }, by rw [hws]; rfl, ?_⟩
              show s.submitted = w.execed ++ statusJob WStatus.terminated ++ s.queue
              rw [heq, hlk]
              simp [statusJob]
        | succ k => simp at hmem
      next => cases hstep
    next => cases hstep
  | finish i =>
    simp only [step] at hstep
    split at hstep
    next u hmem =>
      split at hstep
      next j hst =>
        rw [hws] at hmem
        cases i with
        | zero =>
          simp only [List.getElem?_cons_zero, Option.some.injEq] at hmem
          subst hmem
          split at hstep
          next =>
            injection hstep with h; subst h
            refine ⟨{ w with status := WStatus.panicked j }, by rw [hws]; rfl, ?_⟩
            show s.submitted = w.execed ++ statusJob (WStatus.panicked j) ++ s.queue
            rw [heq, hst]
            simp [statusJob]
          next =>
            injection hstep with h; subst h
            refine ⟨{ w with status := WStatus.idle, execed := w.execed ++ [j] }, by rw [hws]; rfl, ?_⟩
            show s.submitted = (w.execed ++ [j]) ++ statusJob WStatus.idle ++ s.queue
            rw [heq, hst]
            simp [statusJob]
        | succ k => simp at hmem
      next => cases hstep
    next => cases hstep

theorem run_sinv {fp : Nat → Bool} :
    ∀ (acts : List Act) (s s' : Sys), SInv s → run fp acts s = some s' → SInv s'
  | [], s, s', h, hrun => by
    simp only [run, Option.some.injEq] at hrun
    rw [← hrun]; exact h
  | a :: as, s, s', h, hrun => by
    simp only [run] at hrun
    cases hstep : step fp s a with
    | none => rw [hstep] at hrun; cases hrun
    | some s1 =>
      rw [hstep] at hrun
      exact run_sinv as s1 s' (step_sinv h hstep) hrun

/-- C1: after every schedule of a pool of `n ≥ 1` workers in which shutdown has
completed (every worker's loop has terminated), each of the `M` successfully
submitted jobs has been executed to completion exactly once in total across
all workers — no duplication and no drop — and no job outside the submission
history was ever executed. -/
theorem jobs_executed_exactly_once (fp : Nat → Bool) (n : Nat) (acts : List Act) (s : Sys)
    (hn : 0 < n) (hrun : run fp acts (init n) = some s)
    (hterm : ∀ w ∈ s.workers, w.status = WStatus.terminated) :
    (∀ j ∈ s.submitted, (s.workers.map (fun w => w.execed.count j)).sum = 1) ∧
    (∀ j, j ∉ s.submitted → (s.workers.map (fun w => w.execed.count j)).sum = 0) := by
  have hinv := run_inv acts (init n) s (inv_init n) hrun
  have hwids := run_wids acts (init n) s hrun
  have hlen : s.workers.length = n := by
    have h := congrArg List.length hwids
    simpa [init] using h
  have hne : s.workers ≠ [] := by
    intro h
    rw [h] at hlen
    simp at hlen
    omega
  obtain ⟨w0, hw0⟩ := List.exists_mem_of_ne_nil s.workers hne
  have hdrain := hinv.termDrained ⟨w0, hw0, hterm w0 hw0⟩
  have hifl : inFlight s = [] := by
    simp only [inFlight, List.flatten_eq_nil_iff]
    intro x hx
    simp only [List.mem_map] at hx
    obtain ⟨w, hw, rfl⟩ := hx
    rw [hterm w hw]
    rfl
  have key : ∀ j, s.submitted.count j = (s.workers.map (fun w => w.execed.count j)).sum := by
    intro j
    have hc := hinv.count j
    rw [hdrain.2, hifl] at hc
    simpa [execedAll, count_flatten_eq_sum, List.map_map, Function.comp] using hc
  refine ⟨?_, ?_⟩
  · intro j hj
    rw [← key j]
    have hnd : s.submitted.Nodup := by
      rw [hinv.subRange]
      exact List.nodup_range _
    exact List.count_eq_one_of_mem hnd hj
  · intro j hj
    rw [← key j]
    exact List.count_eq_zero.2 hj

/-- The jobs never panic in the nominal schedules used as witnesses. -/
def fpNone : Nat → Bool := fun _ => false

/-- A complete interleaved schedule of a 2-worker pool executing 3 jobs. -/
def actsC1 : List Act :=
  [Act.submit, Act.submit, Act.submit,
   Act.acquire 0, Act.recv 0, Act.acquire 1, Act.recv 1, Act.finish 1, Act.finish 0,
   Act.acquire 0, Act.recv 0, Act.close, Act.finish 0,
   Act.acquire 1, Act.recv 1, Act.acquire 0, Act.recv 0]

def sC1 : Sys := (run fpNone actsC1 (init 2)).getD (init 2)

theorem jobs_executed_exactly_once_witness :
    (∀ j ∈ sC1.submitted, (sC1.workers.map (fun w => w.execed.count j)).sum = 1) ∧
    (∀ j, j ∉ sC1.submitted → (sC1.workers.map (fun w => w.execed.count j)).sum = 0) :=
  jobs_executed_exactly_once fpNone 2 actsC1 sC1 (by decide) (by decide) (by decide)

/-- C8: a pool with a single worker executes jobs in submission order: after
any schedule of `init 1` in which the worker's loop has terminated, its list
of completed jobs is exactly the submission history in order, i.e. the ids
`0, ..., M-1`; with five submissions it is `[0, 1, 2, 3, 4]`. -/
theorem single_worker_submission_order (fp : Nat → Bool) (acts : List Act) (s : Sys)
    (w : WorkerSt) (hrun : run fp acts (init 1) = some s) (hw : s.workers = [w])
    (hterm : w.status = WStatus.terminated) :
    w.execed = s.submitted ∧ w.execed = List.range s.submitted.length ∧
    (s.submitted.length = 5 → w.execed = [0, 1, 2, 3, 4]) := by
  have hinv := run_inv acts (init 1) s (inv_init 1) hrun
  have hs := run_sinv acts (init 1) s sinv_init hrun
  obtain ⟨w', hw', heq⟩ := hs
  rw [hw] at hw'
  injection hw' with hw' _
  subst hw'
  have hdrain := hinv.termDrained ⟨w, by simp [hw], hterm⟩
  rw [hdrain.2, hterm] at heq
  simp only [statusJob, List.append_nil] at heq
  have h1 : w.execed = s.submitted := heq.symm
  refine ⟨h1, ?_, ?_⟩
  · rw [h1, ← hinv.subRange]
  · intro h5
    rw [h1, hinv.subRange, h5]
    decide

/-- A complete schedule of a 1-worker pool executing 5 jobs. -/
def actsC8 : List Act :=
  [Act.submit, Act.submit,
   Act.acquire 0, Act.recv 0, Act.finish 0,
   Act.submit, Act.submit, Act.submit,
   Act.acquire 0, Act.recv 0, Act.finish 0,
   Act.acquire 0, Act.recv 0, Act.finish 0,
   Act.acquire 0, Act.recv 0, Act.finish 0,
   Act.close,
   Act.acquire 0, Act.recv 0, Act.finish 0,
   Act.acquire 0, Act.recv 0]

def sC8 : Sys := (run fpNone actsC8 (init 1)).getD (init 1)

def wC8 : WorkerSt := (sC8.workers.getLast?).getD ⟨1, WStatus.idle, []⟩

theorem single_worker_submission_order_witness :
    wC8.execed = sC8.submitted ∧ wC8.execed = List.range sC8.submitted.length ∧
    (sC8.submitted.length = 5 → wC8.execed = [0, 1, 2, 3, 4]) :=
  single_worker_submission_order fpNone actsC8 sC8 wC8 (by decide) (by decide) (by decide)

/-- C7: the worker thread function is the two-state loop of `Worker::new`.
In any enabled step, worker `i` leaves its loop (enters the terminal
`terminated` state) exactly when its `recv` observes the closed-signal (empty
buffer and dropped sender); when `recv` yields a job, the worker moves to
executing exactly that job; and completing a non-panicking job returns the
worker to the top of the loop with the job appended to its execution history.
No other action terminates the loop. -/
theorem worker_loop_state_machine (fp : Nat → Bool) (s s' : Sys) (a : Act) (i : Nat)
    (w w' : WorkerSt) (hstep : step fp s a = some s')
    (hw : s.workers[i]? = some w) (hw' : s'.workers[i]? = some w') :
    ((w'.status = WStatus.terminated ∧ ¬w.status = WStatus.terminated) ↔
      (a = Act.recv i ∧ w.status = WStatus.locked ∧ s.queue = [] ∧ s.senderOpen = false)) ∧
    (∀ j rest, a = Act.recv i → s.queue = j :: rest → w.status = WStatus.locked →
      w'.status = WStatus.running j) ∧
    (∀ j, a = Act.finish i → w.status = WStatus.running j → fp j = false →
      w'.status = WStatus.idle ∧ w'.execed = w.execed ++ [j]) := by
  cases a with
  | submit =>
    simp only [step] at hstep
    split at hstep
    next hopen =>
      injection hstep with h
      have hwk : s'.workers = s.workers := by rw [← h]
      rw [hwk, hw] at hw'
      injection hw' with hww
      subst hww
      refine ⟨?_, ?_, ?_⟩
      · constructor
        · rintro ⟨h1, h2⟩; exact absurd h1 h2
        · rintro ⟨hc, _⟩; cases hc
      · intro j rest hc; cases hc
      · intro j hc; cases hc
    next => cases hstep
  | close =>
    simp only [step] at hstep
    split at hstep
    next hopen =>
      injection hstep with h
      have hwk : s'.workers = s.workers := by rw [← h]
      rw [hwk, hw] at hw'
      injection hw' with hww
      subst hww
      refine ⟨?_, ?_, ?_⟩
      · constructor
        · rintro ⟨h1, h2⟩; exact absurd h1 h2
        · rintro ⟨hc, _⟩; cases hc
      · intro j rest hc; cases hc
      · intro j hc; cases hc
    next => cases hstep
  | acquire k =>
    simp only [step] at hstep
    split at hstep
    next u hmem =>
      split at hstep
      next hcond =>
        obtain ⟨hidle, _⟩ := hcond
        injection hstep with h
        have hwk : s'.workers =
            modifyAt k (fun v => { v with status := WStatus.locked }) s.workers := by
          rw [← h]
        rw [hwk] at hw'
        by_cases hik : i = k
        · subst hik
          rw [hw] at hmem
          injection hmem with hmem
          subst hmem
          rw [getElem?_modifyAt_self, hw] at hw'
          injection hw' with hww
          subst hww
          refine ⟨?_, ?_, ?_⟩
          · constructor
            · rintro ⟨h1, _⟩; cases h1
            · rintro ⟨hc, _⟩; cases hc
          · intro j rest hc; cases hc
          · intro j hc; cases hc
        · rw [getElem?_modifyAt_ne _ k i _ hik, hw] at hw'
          injection hw' with hww
          subst hww
          refine ⟨?_, ?_, ?_⟩
          · constructor
            · rintro ⟨h1, h2⟩; exact absurd h1 h2
            · rintro ⟨hc, _⟩; injection hc
          · intro j rest hc; injection hc
          · intro j hc; injection hc
      next => cases hstep
    next => cases hstep
  | recv k =>
    simp only [step] at hstep
    split at hstep
    next u hmem =>
      split at hstep
      next hcond =>
        obtain ⟨hlk, _⟩ := hcond
        split at hstep
        next j0 rest0 hq =>
          injection hstep with h
          have hwk : s'.workers =
              modifyAt k (fun v => { v with status := WStatus.running j0 }) s.workers := by
            rw [← h]
          rw [hwk] at hw'
          by_cases hik : i = k
          · subst hik
            rw [hw] at hmem
            injection hmem with hmem
            subst hmem
            rw [getElem?_modifyAt_self, hw] at hw'
            injection hw' with hww
            subst hww
            refine ⟨?_, ?_, ?_⟩
            · constructor
              · rintro ⟨h1, _⟩; cases h1
              · rintro ⟨_, _, hq', _⟩
                rw [hq'] at hq
                cases hq
            · intro j rest _ hq' _
              rw [hq'] at hq
              injection hq with hj _
              rw [hj]
            · intro j hc; cases hc
          · rw [getElem?_modifyAt_ne _ k i _ hik, hw] at hw'
            injection hw' with hww
            subst hww
            refine ⟨?_, ?_, ?_⟩
            · constructor
              · rintro ⟨h1, h2⟩; exact absurd h1 h2
              · rintro ⟨hc, _⟩
                injection hc with hc
                exact absurd hc.symm hik
            · intro j rest hc
              injection hc with hc
              exact absurd hc.symm hik
            · intro j hc; cases hc
        next hq =>
          split at hstep
          next => cases hstep
          next hopen =>
            have hso : s.senderOpen = false := by
              cases hy : s.senderOpen
              · rfl
              · exact absurd hy hopen
            injection hstep with h
            have hwk : s'.workers =
                modifyAt k (fun v => { v with status := WStatus.terminated }) s.workers := by
              rw [← h]
            rw [hwk] at hw'
            by_cases hik : i = k
            · subst hik
              rw [hw] at hmem
              injection hmem with hmem
              subst hmem
              rw [getElem?_modifyAt_self, hw] at hw'
              injection hw' with hww
              subst hww
              refine ⟨?_, ?_, ?_⟩
              · constructor
                · rintro ⟨_, _⟩
                  exact ⟨rfl, hlk, hq, hso⟩
                · rintro ⟨_, _, _, _⟩
                  refine ⟨rfl, ?_⟩
                  rw [hlk]
                  intro hc; cases hc
              · intro j rest _ hq' _
                rw [hq'] at hq
                cases hq
              · intro j hc; cases hc
            · rw [getElem?_modifyAt_ne _ k i _ hik, hw] at hw'
              injection hw' with hww
              subst hww
              refine ⟨?_, ?_, ?_⟩
              · constructor
                · rintro ⟨h1, h2⟩; exact absurd h1 h2
                · rintro ⟨hc, _⟩
                  injection hc with hc
                  exact absurd hc.symm hik
              · intro j rest hc
                injection hc with hc
                exact absurd hc.symm hik
              · intro j hc; cases hc
      next => cases hstep
    next => cases hstep
  | finish k =>
    simp only [step] at hstep
    split at hstep
    next u hmem =>
      split at hstep
      next j0 hst =>
        split at hstep
        next hpanic =>
          injection hstep with h
          have hwk : s'.workers =
              modifyAt k (fun v => { v with status := WStatus.panicked j0 }) s.workers := by
            rw [← h]
          rw [hwk] at hw'
          by_cases hik : i = k
          · subst hik
            rw [hw] at hmem
            injection hmem with hmem
            subst hmem
            rw [getElem?_modifyAt_self, hw] at hw'
            injection hw' with hww
            subst hww
            refine ⟨?_, ?_, ?_⟩
            · constructor
              · rintro ⟨h1, _⟩; cases h1
              · rintro ⟨hc, _⟩; cases hc
            · intro j rest hc; cases hc
            · intro j _ hst' hfp
              rw [hst'] at hst
              injection hst with hj
              rw [← hj] at hpanic
              rw [hpanic] at hfp
              cases hfp
          · rw [getElem?_modifyAt_ne _ k i _ hik, hw] at hw'
            injection hw' with hww
            subst hww
            refine ⟨?_, ?_, ?_⟩
            · constructor
              · rintro ⟨h1, h2⟩; exact absurd h1 h2
              · rintro ⟨hc, _⟩; cases hc
            · intro j rest hc; cases hc
            · intro j hc
              injection hc with hc
              exact absurd hc.symm hik
        next hpanic =>
          injection hstep with h
          have hwk : s'.workers =
              modifyAt k
                (fun v => { v with status := WStatus.idle, execed := v.execed ++ [j0] })
                s.workers := by
            rw [← h]
          rw [hwk] at hw'
          by_cases hik : i = k
          · subst hik
            rw [hw] at hmem
            injection hmem with hmem
            subst hmem
            rw [getElem?_modifyAt_self, hw] at hw'
            injection hw' with hww
            subst hww
            refine ⟨?_, ?_, ?_⟩
            · constructor
              · rintro ⟨h1, _⟩; cases h1
              · rintro ⟨hc, _⟩; cases hc
            · intro j rest hc; cases hc
            · intro j _ hst' _
              rw [hst'] at hst
              injection hst with hj
              rw [hj]
              exact ⟨rfl, rfl⟩
          · rw [getElem?_modifyAt_ne _ k i _ hik, hw] at hw'
            injection hw' with hww
            subst hww
            refine ⟨?_, ?_, ?_⟩
            · constructor
              · rintro ⟨h1, h2⟩; exact absurd h1 h2
              · rintro ⟨hc, _⟩; cases hc
            · intro j rest hc; cases hc
            · intro j hc
              injection hc with hc
              exact absurd hc.symm hik
      next => cases hstep
    next => cases hstep

/-- A state with worker 0 just having received the closed-signal. -/
def sC7pre : Sys := (run fpNone [Act.close, Act.acquire 0] (init 1)).getD (init 1)

def wDefault : WorkerSt := ⟨1, WStatus.idle, []⟩

theorem worker_loop_state_machine_witness :
    ((((run fpNone [Act.recv 0] sC7pre).getD sC7pre).workers[0]?.getD
        wDefault).status = WStatus.terminated ∧
      ¬(sC7pre.workers[0]?.getD wDefault).status = WStatus.terminated) ↔
    (Act.recv 0 = Act.recv 0 ∧
      (sC7pre.workers[0]?.getD wDefault).status = WStatus.locked ∧
      sC7pre.queue = [] ∧ sC7pre.senderOpen = false) :=
  (worker_loop_state_machine fpNone sC7pre
    ((run fpNone [Act.recv 0] sC7pre).getD sC7pre) (Act.recv 0) 0
    (sC7pre.workers[0]?.getD wDefault)
    (((run fpNone [Act.recv 0] sC7pre).getD sC7pre).workers[0]?.getD wDefault)
    (by decide) (by decide) (by decide)).1

/-- C9: a panicking job is local to its worker. Along any reachable execution:
the receiver mutex is only ever held by a worker sitting at the `recv` call,
never by one executing a job (the guard is dropped before `job()` runs), so a
panic inside a job cannot poison the lock; the pool always has exactly its
original `n` workers (no respawn); and once a worker has panicked its entry is
frozen forever — no later schedule changes or replaces it. -/
theorem panic_locality (fp : Nat → Bool) (n : Nat) (acts : List Act) (s : Sys)
    (hrun : run fp acts (init n) = some s) :
    (∀ i, s.lockHolder = some i →
      ∃ w, s.workers[i]? = some w ∧ w.status = WStatus.locked) ∧
    (∀ i w j, s.workers[i]? = some w → w.status = WStatus.running j →
      s.lockHolder ≠ some i) ∧
    s.workers.length = n ∧
    (∀ (acts' : List Act) (s' : Sys) (i : Nat) (w : WorkerSt) (j : Nat),
      run fp acts' s = some s' → s.workers[i]? = some w →
      w.status = WStatus.panicked j →
      s'.workers[i]? = some w ∧ s'.workers.length = n) := by
  have hinv := run_inv acts (init n) s (inv_init n) hrun
  have hwids := run_wids acts (init n) s hrun
  have hlen : s.workers.length = n := by
    have h := congrArg List.length hwids
    simpa [init] using h
  refine ⟨hinv.lockInv, ?_, hlen, ?_⟩
  · intro i w j hw hst hl
    obtain ⟨w', hw', hst'⟩ := hinv.lockInv i hl
    rw [hw] at hw'
    injection hw' with hw'
    rw [← hw', hst] at hst'
    cases hst'
  · intro acts' s' i w j hrun' hw hst
    refine ⟨run_panicked_frame acts' s s' hrun' hw hst, ?_⟩
    have h := congrArg List.length (run_wids acts' s s' hrun')
    simpa [hlen] using h

/-- Job 0 panics; all other jobs run to completion. -/
def fpC9 : Nat → Bool := fun j => decide (j = 0)

/-- Worker 0 of a 2-worker pool dequeues and runs job 0, which panics. -/
def actsC9 : List Act :=
  [Act.submit, Act.submit, Act.acquire 0, Act.recv 0, Act.finish 0]

def sC9 : Sys := (run fpC9 actsC9 (init 2)).getD (init 2)

theorem panic_locality_witness :
    (∀ i, sC9.lockHolder = some i →
      ∃ w, sC9.workers[i]? = some w ∧ w.status = WStatus.locked) ∧
    (∀ i w j, sC9.workers[i]? = some w → w.status = WStatus.running j →
      sC9.lockHolder ≠ some i) ∧
    sC9.workers.length = 2 ∧
    (∀ (acts' : List Act) (s' : Sys) (i : Nat) (w : WorkerSt) (j : Nat),
      run fpC9 acts' sC9 = some s' → sC9.workers[i]? = some w →
      w.status = WStatus.panicked j →
      s'.workers[i]? = some w ∧ s'.workers.length = 2) :=
  panic_locality fpC9 2 actsC9 sC9 (by decide)

/-!
## The sequential API model of `ThreadPool`

`ThreadPool::new`, `ThreadPool::execute` and `<ThreadPool as Drop>::drop`
as functions on an explicit pool record. A `Worker`'s `thread: Option<JoinHandle<()>>`
is an `Option Nat` (the handle is tagged with the worker id); the
`sender: Option<mpsc::Sender<Job>>` is an `Option Unit`. A Rust panic is
`none` (for `new`/`execute`) or the `panicked` branch of `DropResult`.
-/

/-- A `Worker` as `Drop` sees it: its id and its joinable thread handle. -/
structure WorkerH where
  id : Nat
  thread : Option Nat
deriving DecidableEq

/-- The `ThreadPool` struct: `workers: Vec<Worker>`, `sender: Option<Sender<Job>>`. -/
structure ThreadPool where
  workers : List WorkerH
  sender : Option Unit
deriving DecidableEq

/-- `ThreadPool::new(size)`: `assert!(size > 0)` (a panic, hence `none`, for
`size = 0`), then spawn one worker per `id in 1..=size`, each holding a live
thread handle, and keep the sender. -/
def ThreadPool.new (size : Nat) : Option ThreadPool :=
  if 0 < size then
    some { workers := (List.range size).map (fun i => ⟨i + 1, some (i + 1)⟩)
           sender := some () }
  else none

/-- `ThreadPool::execute(f)`: `self.sender.as_ref().expect(..).send(job).expect(..)`.
If the sender was already taken by shutdown, the `expect` panics (`none`);
otherwise the job is appended to the channel buffer `q` and the pool itself is
returned unchanged (`execute` takes `&self`). -/
def ThreadPool.execute (p : ThreadPool) (q : List Nat) (j : Nat) : Option (ThreadPool × List Nat) :=
  match p.sender with
  | some _ => some (p, q ++ [j])
  | none => none

/-- Observable shutdown events: the channel's producing end being dropped, and
a `join` being attempted on a worker's thread. -/
inductive Ev
  | closedSender
  | joinAttempt (wid : Nat)
deriving DecidableEq

/-- `drop(self.sender.take())`: emits a close event only if the sender was
still present. -/
def closeEvents (p : ThreadPool) : List Ev :=
  match p.sender with
  | some _ => [Ev.closedSender]
  | none => []

/-- The `for worker in &mut self.workers` loop of `Drop::drop`: for each worker
with a live handle, `take()` the handle and `join().expect(..)`; `jk w.id`
says whether that join returns `Ok`. On the first failing join the `expect`
panics, aborting the loop: the failing worker's handle has been taken but all
later workers are left untouched. Returns the updated workers, the events that
happened, and whether the loop completed without panicking. -/
def joinWorkers (jk : Nat → Bool) : List WorkerH → List WorkerH × List Ev × Bool
  | [] => ([], [], true)
  | ⟨wid, none⟩ :: ws =>
    (⟨wid, none⟩ :: (joinWorkers jk ws).1, (joinWorkers jk ws).2.1, (joinWorkers jk ws).2.2)
  | ⟨wid, some _⟩ :: ws =>
    if jk wid then
      (⟨wid, none⟩ :: (joinWorkers jk ws).1,
        Ev.joinAttempt wid :: (joinWorkers jk ws).2.1, (joinWorkers jk ws).2.2)
    else
      (⟨wid, none⟩ :: ws, [Ev.joinAttempt wid], false)

/-- Result of running the `Drop::drop` body: either it completed (`ok`) or an
`expect` on a failed join panicked part-way (`panicked`), in both cases with
the pool state it left behind and the events that occurred. -/
inductive DropResult
  | ok (p : ThreadPool) (evs : List Ev)
  | panicked (p : ThreadPool) (evs : List Ev)
deriving DecidableEq

/-- The whole `Drop::drop` body: take and drop the sender, then join each
worker in order. -/
def dropPool (jk : Nat → Bool) (p : ThreadPool) : DropResult :=
  match joinWorkers jk p.workers with
  | (ws, evs, true) => DropResult.ok ⟨ws, none⟩ (closeEvents p ++ evs)
  | (ws, evs, false) => DropResult.panicked ⟨ws, none⟩ (closeEvents p ++ evs)

theorem joinWorkers_ok_threads (jk : Nat → Bool) :
    ∀ ws : List WorkerH, (joinWorkers jk ws).2.2 = true →
      ∀ w ∈ (joinWorkers jk ws).1, w.thread = none := by
  intro ws
  induction ws with
  | nil =>
    intro _ w hw
    simp [joinWorkers] at hw
  | cons u ws ih =>
    obtain ⟨wid, thr⟩ := u
    cases thr with
    | none =>
      intro hok w hw
      simp only [joinWorkers] at hok hw
      rcases List.mem_cons.1 hw with rfl | hw
      · rfl
      · exact ih hok w hw
    | some t =>
      by_cases hjk : jk wid
      · intro hok w hw
        simp only [joinWorkers, if_pos hjk] at hok hw
        rcases List.mem_cons.1 hw with rfl | hw
        · rfl
        · exact ih hok w hw
      · intro hok
        simp only [joinWorkers, if_neg hjk] at hok
        cases hok

theorem joinWorkers_of_no_threads (jk : Nat → Bool) :
    ∀ ws : List WorkerH, (∀ w ∈ ws, w.thread = none) → joinWorkers jk ws = (ws, [], true) := by
  intro ws
  induction ws with
  | nil => intro _; rfl
  | cons u ws ih =>
    intro h
    obtain ⟨wid, thr⟩ := u
    have hu : thr = none := h ⟨wid, thr⟩ (List.mem_cons_self _ _)
    subst hu
    have hrest := ih (fun w hw => h w (List.mem_cons_of_mem _ hw))
    simp [joinWorkers, hrest]

theorem joinWorkers_no_close (jk : Nat → Bool) :
    ∀ ws : List WorkerH, Ev.closedSender ∉ (joinWorkers jk ws).2.1 := by
  intro ws
  induction ws with
  | nil => simp [joinWorkers]
  | cons u ws ih =>
    obtain ⟨wid, thr⟩ := u
    cases thr with
    | none => simpa [joinWorkers] using ih
    | some t =>
      by_cases hjk : jk wid
      · simp only [joinWorkers, if_pos hjk, List.mem_cons]
        rintro (hc | hc)
        · cases hc
        · exact ih hc
      · simp [joinWorkers, if_neg hjk]

theorem joinWorkers_panicked (jk : Nat → Bool) :
    ∀ ws : List WorkerH, (joinWorkers jk ws).2.2 = false →
      ∃ (i : Nat) (w : WorkerH), ws[i]? = some w ∧ w.thread.isSome = true ∧ jk w.id = false ∧
        Ev.joinAttempt w.id ∈ (joinWorkers jk ws).2.1 ∧
        (joinWorkers jk ws).1[i]? = some { w with thread := none } ∧
        ∀ k, i < k → (joinWorkers jk ws).1[k]? = ws[k]? := by
  intro ws
  induction ws with
  | nil => intro h; cases h
  | cons u ws ih =>
    obtain ⟨wid, thr⟩ := u
    cases thr with
    | none =>
      intro h
      simp only [joinWorkers] at h ⊢
      obtain ⟨i, w, h1, h2, h3, h4, h5, h6⟩ := ih h
      refine ⟨i + 1, w, ?_, h2, h3, h4, ?_, ?_⟩
      · simpa using h1
      · simpa using h5
      · intro k hk
        cases k with
        | zero => omega
        | succ k => simpa using h6 k (by omega)
    | some t =>
      cases hjk : jk wid with
      | true =>
        intro h
        simp only [joinWorkers, if_pos hjk] at h ⊢
        obtain ⟨i, w, h1, h2, h3, h4, h5, h6⟩ := ih h
        refine ⟨i + 1, w, ?_, h2, h3, List.mem_cons_of_mem _ h4, ?_, ?_⟩
        · simpa using h1
        · simpa using h5
        · intro k hk
          cases k with
          | zero => omega
          | succ k => simpa using h6 k (by omega)
      | false =>
        intro _
        refine ⟨0, ⟨wid, some t⟩, by simp, rfl, hjk, ?_, ?_, ?_⟩
        · simp [joinWorkers, hjk]
        · simp [joinWorkers, hjk]
        · intro k hk
          cases k with
          | zero => omega
          | succ k => simp [joinWorkers, hjk]

/-- C4: the `Drop` body closes the producing end exactly once and is
idempotent. Whenever the drop body completes, the sender is gone, every
worker's thread handle has been taken, exactly one close event occurred, and
running the same body again from the resulting state performs no event at
all (no double-close, no double-join) and leaves the state fixed. -/
theorem drop_idempotent (jk : Nat → Bool) (p p' : ThreadPool) (evs : List Ev)
    (h : dropPool jk p = DropResult.ok p' evs) :
    p'.sender = none ∧ (∀ w ∈ p'.workers, w.thread = none) ∧
    (p.sender = some () → evs.count Ev.closedSender = 1) ∧
    dropPool jk p' = DropResult.ok p' [] := by
  unfold dropPool at h
  cases hj : joinWorkers jk p.workers with
  | mk ws r =>
    cases r with
    | mk evs1 ok1 =>
      rw [hj] at h
      cases ok1 with
      | false => cases h
      | true =>
        injection h with h1 h2
        subst h1
        subst h2
        have hthreads : ∀ w ∈ ws, w.thread = none := by
          have := joinWorkers_ok_threads jk p.workers (by rw [hj])
          rw [hj] at this
          exact this
        refine ⟨rfl, hthreads, ?_, ?_⟩
        · intro hs
          have hnc : Ev.closedSender ∉ evs1 := by
            have := joinWorkers_no_close jk p.workers
            rw [hj] at this
            exact this
          simp [closeEvents, hs, List.count_append, List.count_eq_zero.2 hnc]
        · show dropPool jk ⟨ws, none⟩ = DropResult.ok ⟨ws, none⟩ []
          unfold dropPool
          rw [joinWorkers_of_no_threads jk ws hthreads]
          rfl

def jkOk : Nat → Bool := fun _ => true

def poolC4 : ThreadPool := ⟨[⟨1, some 1⟩, ⟨2, some 2⟩], some ()⟩

def poolC4r : ThreadPool := ⟨[⟨1, none⟩, ⟨2, none⟩], none⟩

def evsC4 : List Ev := [Ev.closedSender, Ev.joinAttempt 1, Ev.joinAttempt 2]

theorem drop_idempotent_witness :
    poolC4r.sender = none ∧ (∀ w ∈ poolC4r.workers, w.thread = none) ∧
    (poolC4.sender = some () → evsC4.count Ev.closedSender = 1) ∧
    dropPool jkOk poolC4r = DropResult.ok poolC4r [] :=
  drop_idempotent jkOk poolC4 poolC4r evsC4 (by decide)

/-- The join of worker 1 fails; every other join succeeds. -/
def jkC5 : Nat → Bool := fun i => decide (i ≠ 1)

def poolC5 : ThreadPool := ⟨[⟨1, some 1⟩, ⟨2, some 2⟩], some ()⟩

/-- Counterexample to C5 as stated: in a 2-worker pool where worker 1's join
fails, the drop body panics at the failing `expect` and worker 2 is never
joined — no join attempt for it occurs and its thread handle survives — so a
join failure does NOT merely produce a per-worker report while shutdown keeps
joining the remaining workers. -/
theorem join_failure_abandons_rest_counterexample :
    dropPool jkC5 poolC5 =
      DropResult.panicked ⟨[⟨1, none⟩, ⟨2, some 2⟩], none⟩
        [Ev.closedSender, Ev.joinAttempt 1] ∧
    Ev.joinAttempt 2 ∉ [Ev.closedSender, Ev.joinAttempt 1] ∧
    (⟨2, some 2⟩ : WorkerH).thread ≠ none := by decide

/-- C5 (amended): when any worker's join fails during shutdown, the drop body
panics at the first such worker (failing loudly, after attempting its join and
taking its handle) and abandons the loop: every worker after the failing one
is left exactly as it was — never joined, its thread handle intact. -/
theorem join_failure_aborts_drop (jk : Nat → Bool) (p p' : ThreadPool) (evs : List Ev)
    (h : dropPool jk p = DropResult.panicked p' evs) :
    p'.sender = none ∧
    ∃ (i : Nat) (w : WorkerH), p.workers[i]? = some w ∧ w.thread.isSome = true ∧ jk w.id = false ∧
      Ev.joinAttempt w.id ∈ evs ∧ p'.workers[i]? = some { w with thread := none } ∧
      ∀ k, i < k → p'.workers[k]? = p.workers[k]? := by
  unfold dropPool at h
  cases hj : joinWorkers jk p.workers with
  | mk ws r =>
    cases r with
    | mk evs1 ok1 =>
      rw [hj] at h
      cases ok1 with
      | true => cases h
      | false =>
        injection h with h1 h2
        subst h1
        subst h2
        have hfail : (joinWorkers jk p.workers).2.2 = false := by rw [hj]
        obtain ⟨i, w, h1, h2, h3, h4, h5, h6⟩ := joinWorkers_panicked jk p.workers hfail
        rw [hj] at h4 h5 h6
        exact ⟨rfl, i, w, h1, h2, h3, List.mem_append.2 (Or.inr h4), h5, h6⟩

theorem join_failure_aborts_drop_witness :
    (⟨[⟨1, none⟩, ⟨2, some 2⟩], none⟩ : ThreadPool).sender = none ∧
    ∃ (i : Nat) (w : WorkerH), poolC5.workers[i]? = some w ∧ w.thread.isSome = true ∧ jkC5 w.id = false ∧
      Ev.joinAttempt w.id ∈ [Ev.closedSender, Ev.joinAttempt 1] ∧
      (⟨[⟨1, none⟩, ⟨2, some 2⟩], none⟩ : ThreadPool).workers[i]? =
        some { w with thread := none } ∧
      ∀ k, i < k →
        (⟨[⟨1, none⟩, ⟨2, some 2⟩], none⟩ : ThreadPool).workers[k]? = poolC5.workers[k]? :=
  join_failure_aborts_drop jkC5 poolC5 ⟨[⟨1, none⟩, ⟨2, some 2⟩], none⟩
    [Ev.closedSender, Ev.joinAttempt 1] (by decide)

/-- C2: `ThreadPool::new(0)` trips `assert!(size > 0)` and panics: it never
returns a pool, and in particular the size is not silently coerced to one. -/
theorem new_zero_fails : ThreadPool.new 0 = none := rfl

/-- C6: for every `n ≥ 1`, `ThreadPool::new(n)` returns a pool holding exactly
`n` workers, carrying the ids `1, 2, ..., n` in that order, each with a live
(spawned) thread handle; the concurrent model's initial state agrees. -/
theorem new_spawns_workers (n : Nat) (hn : 0 < n) :
    ∃ p, ThreadPool.new n = some p ∧ p.workers.length = n ∧
      p.workers.map (fun w => w.id) = (List.range n).map (fun i => i + 1) ∧
      (∀ w ∈ p.workers, w.thread.isSome = true) ∧
      (init n).workers.length = n ∧
      (init n).workers.map WorkerSt.wid = (List.range n).map (fun i => i + 1) := by
  refine ⟨⟨(List.range n).map (fun i => ⟨i + 1, some (i + 1)⟩), some ()⟩, ?_, ?_, ?_, ?_, ?_, ?_⟩
  · simp [ThreadPool.new, hn]
  · simp
  · simp
  · intro w hw
    simp only [List.mem_map, List.mem_range] at hw
    obtain ⟨i, _, rfl⟩ := hw
    rfl
  · simp [init]
  · simp [init]

theorem new_spawns_workers_witness :
    0 < 3 ∧
    ∃ p, ThreadPool.new 3 = some p ∧ p.workers.length = 3 ∧
      p.workers.map (fun w => w.id) = (List.range 3).map (fun i => i + 1) ∧
      (∀ w ∈ p.workers, w.thread.isSome = true) ∧
      (init 3).workers.length = 3 ∧
      (init 3).workers.map WorkerSt.wid = (List.range 3).map (fun i => i + 1) :=
  ⟨by decide, new_spawns_workers 3 (by decide)⟩

/-- C3: submitting after shutdown has begun fails loudly and the job is never
run. In the API model, once the sender has been taken (`sender = none`),
`execute` panics at the `expect` (`none`) without enqueuing anything; in the
concurrent model, once the sender is dropped no `submit` step is enabled at
all, so the job never enters the channel and is never executed. -/
theorem execute_after_shutdown_panics (p : ThreadPool) (q : List Nat) (j : Nat)
    (fp : Nat → Bool) (s : Sys) (hp : p.sender = none) (hs : s.senderOpen = false) :
    ThreadPool.execute p q j = none ∧ step fp s Act.submit = none := by
  constructor
  · simp [ThreadPool.execute, hp]
  · simp [step, hs]

def poolC3 : ThreadPool := ⟨[⟨1, none⟩], none⟩

def sC3 : Sys := (run fpNone [Act.close] (init 1)).getD (init 1)

theorem execute_after_shutdown_panics_witness :
    ThreadPool.execute poolC3 [] 0 = none ∧ step fpNone sC3 Act.submit = none :=
  execute_after_shutdown_panics poolC3 [] 0 fpNone sC3 (by decide) (by decide)

/-- C10: a successful `execute` is pure enqueue: it returns the pool value
unchanged (same workers — length, ids and thread handles — and same sender)
and only appends the job to the channel buffer; likewise, in the concurrent
model a `submit` step changes neither the workers nor the mutex nor the
sender, only the queue (and the ghost submission history). -/
theorem execute_frame (p : ThreadPool) (q : List Nat) (j : Nat) (fp : Nat → Bool) (s : Sys)
    (hp : p.sender.isSome = true) (hs : s.senderOpen = true) :
    ThreadPool.execute p q j = some (p, q ++ [j]) ∧
    ∃ s', step fp s Act.submit = some s' ∧ s'.workers = s.workers ∧
      s'.lockHolder = s.lockHolder ∧ s'.senderOpen = s.senderOpen ∧
      s'.queue = s.queue ++ [s.submitted.length] := by
  constructor
  · cases hps : p.sender with
    | none => rw [hps] at hp; cases hp
    | some u => simp [ThreadPool.execute, hps]
  · refine ⟨{ s with
        queue := s.queue ++ [s.submitted.length]
        submitted := s.submitted ++ [s.submitted.length] }, ?_, rfl, rfl, rfl, rfl⟩
    simp [step, hs]

def poolC10 : ThreadPool := ⟨[⟨1, some 1⟩], some ()⟩

theorem execute_frame_witness :
    ThreadPool.execute poolC10 [7] 9 = some (poolC10, [7] ++ [9]) ∧
    ∃ s', step fpNone (init 1) Act.submit = some s' ∧ s'.workers = (init 1).workers ∧
      s'.lockHolder = (init 1).lockHolder ∧ s'.senderOpen = (init 1).senderOpen ∧
      s'.queue = (init 1).queue ++ [(init 1).submitted.length] :=
  execute_frame poolC10 [7] 9 fpNone (init 1) (by decide) (by decide)

end Riotpool
